import Mathlib

/-!
# Verification of the rust-dedup duplicate-file engine

Shallow embedding of `src/rust-dedup/src/scanner.rs`, `hasher.rs` and
`reporter.rs`.

File-system model: paths are abstract identifiers (`Nat`); a file system
gives each path a regular-file flag (`is_file()`), an optional byte size
(`metadata()`, which may fail), and an optional byte content (opening or
reading the file may fail, in which case the content is `none`).

The SHA-256 digest of the `sha2` crate is modelled as an abstract function
`digest : Bytes → Nat`: `hash_file` streams the whole file content through
the running hash state in bounded chunks, so when the read succeeds its
result is the digest of the full content.

Rust `HashMap` grouping (`entry(..).or_default().push(..)`) is modelled by
an insertion-ordered association list: per-key `Vec` push order is exactly
preserved, and map iteration follows one fixed (first-insertion) order of
keys, one of the arbitrary orders a `HashMap` may present.
-/

abbrev PathBuf := Nat
abbrev Bytes := List Nat

structure FS where
  isFile : PathBuf → Bool
  meta : PathBuf → Option Nat
  content : PathBuf → Option Bytes

/-- `scanner.rs, scan_files`: walk the directory tree (the traversal is the
list `walk`; `none` entries are walkdir errors dropped by `filter_map(|e| e.ok())`),
keeping regular files whose stat succeeds with size `≥ min_size`. -/
def scan_files (fs : FS) (walk : List (Option PathBuf)) (min_size : Nat) : List PathBuf :=
  walk.foldl
    (fun files e =>
      match e with
      | none => files
      | some path =>
        if fs.isFile path then
          match fs.meta path with
          | some len => if min_size ≤ len then files ++ [path] else files
          | none => files
        else files)
    []

/-- `hasher.rs, hash_file`: open and read the file in 8192-byte chunks,
folding each chunk into the SHA-256 state; any open/read error is an `Err`.
The chunked loop digests the concatenation of the chunks, i.e. the full
content, so the successful result is `digest` of the whole content. -/
def hash_file (fs : FS) (digest : Bytes → Nat) (p : PathBuf) : Option Nat :=
  (fs.content p).map digest

/-- `HashMap::entry(k).or_default().push(v)` on an insertion-ordered
association list: append `v` to the bucket of `k`, creating the bucket at
the end if absent. -/
def pushEntry (m : List (Nat × List PathBuf)) (k : Nat) (v : PathBuf) : List (Nat × List PathBuf) :=
  match m with
  | [] => [(k, [v])]
  | (k', vs) :: rest => if k = k' then (k', vs ++ [v]) :: rest else (k', vs) :: pushEntry rest k v

/-- The grouping loops of `find_duplicates`: fold a list of files into a
map keyed by `key f` (file size in Phase 1, content digest in Phase 2),
skipping files where `key` fails (stat error / hash error). -/
def groupByKey (key : PathBuf → Option Nat) (l : List PathBuf) (init : List (Nat × List PathBuf)) :
    List (Nat × List PathBuf) :=
  l.foldl
    (fun m f =>
      match key f with
      | some k => pushEntry m k f
      | none => m)
    init

/-- All members of all buckets of a grouping map, in map order. -/
def flatMembers (m : List (Nat × List PathBuf)) : List PathBuf :=
  match m with
  | [] => []
  | g :: rest => g.2 ++ flatMembers rest

/-- Bucket lookup (first matching key). -/
def lookupGroup (m : List (Nat × List PathBuf)) (k : Nat) : List PathBuf :=
  match m with
  | [] => []
  | (k', vs) :: rest => if k = k' then vs else lookupGroup rest k

/-- Phase 1 of `find_duplicates` (`hasher.rs` lines 24-30): group the input
files by stat'ed byte size. -/
def size_groups (fs : FS) (files : List PathBuf) : List (Nat × List PathBuf) :=
  groupByKey fs.meta files []

/-- The Phase 2 candidates (`hasher.rs` lines 34-38): members of size
buckets with more than one member, i.e. the only files ever hashed. -/
def candidates (fs : FS) (files : List PathBuf) : List PathBuf :=
  flatMembers ((size_groups fs files).filter (fun g => 1 < g.2.length))

/-- Phase 2 grouping (`hasher.rs` lines 41-56): hash each candidate and
push it into the bucket of its digest; files whose hashing fails are
skipped (with a warning) and the loop continues. -/
def hash_groups (fs : FS) (digest : Bytes → Nat) (cands : List PathBuf) :
    List (Nat × List PathBuf) :=
  groupByKey (hash_file fs digest) cands []

/-- The warnings emitted by the `Err` arm of the Phase 2 loop: the
candidates whose content could not be opened or fully read. -/
def hash_warnings (fs : FS) (digest : Bytes → Nat) (files : List PathBuf) : List PathBuf :=
  (candidates fs files).filter (fun f => (hash_file fs digest f).isNone)

/-- `hasher.rs, find_duplicates`: Phase 1 size partition, Phase 2 digest
grouping of the candidates, then `retain(|_, paths| paths.len() > 1)`. -/
def find_duplicates (fs : FS) (digest : Bytes → Nat) (files : List PathBuf) :
    List (Nat × List PathBuf) :=
  (hash_groups fs digest (candidates fs files)).filter (fun g => 1 < g.2.length)

/-- Two paths land in a common duplicate group of the result `dups`. -/
def sameGroup (dups : List (Nat × List PathBuf)) (p q : PathBuf) : Prop :=
  ∃ g ∈ dups, p ∈ g.2 ∧ q ∈ g.2

/-! ## Resolver (`reporter.rs, report_and_handle`) -/

/-- `reporter.rs` line 41: `paths[0].metadata().map(|m| m.len()).unwrap_or(0)`.
Groups reaching this point always have ≥ 2 members, so `paths[0]` exists. -/
def groupSize (fs : FS) (paths : List PathBuf) : Nat :=
  match paths with
  | [] => 0
  | p :: _ => (fs.meta p).getD 0

/-- The designated survivor of a group: its first listed member, printed
with the `[keep]` label (`reporter.rs` lines 50-57). -/
def keptFile (paths : List PathBuf) : Option PathBuf :=
  paths.head?

/-- The deletion candidates of a group: `&paths[1..]` (`reporter.rs` line 63),
printed with the `[dupe]` label. -/
def dupeFiles (paths : List PathBuf) : List PathBuf :=
  paths.drop 1

/-- Trimmed, and the accumulated deletion state of a run. -/
structure DelSt where
  deleted : List PathBuf
  attempted : List PathBuf
  count : Nat
  bytes : Nat
deriving Repr, DecidableEq

/-- One `fs::remove_file(dupe)` call (`reporter.rs` lines 67-76): the
outcome oracle `rm` says whether removal succeeds; on success the counters
grow by one file and `size` bytes, on failure only a warning is printed.
Either way the path was attempted. -/
def deleteOne (rm : PathBuf → Bool) (size : Nat) (st : DelSt) (d : PathBuf) : DelSt :=
  if rm d then
    { deleted := st.deleted ++ [d], attempted := st.attempted ++ [d],
      count := st.count + 1, bytes := st.bytes + size }
  else
    { st with attempted := st.attempted ++ [d] }

/-- The per-group deletion loop over all dupe candidates. -/
def deletePass (rm : PathBuf → Bool) (size : Nat) (dupes : List PathBuf) (st : DelSt) : DelSt :=
  dupes.foldl (deleteOne rm size) st

/-- Rust `u8::to_ascii_lowercase` on a byte value. -/
def toAsciiLowerByte (b : Nat) : Nat :=
  if 65 ≤ b ∧ b ≤ 90 then b + 32 else b

/-- Rust `str::eq_ignore_ascii_case`: bytewise equality after ASCII
lowercasing. -/
def eqIgnoreAsciiCase (a b : String) : Bool :=
  a.data.map (fun c => toAsciiLowerByte c.toNat) == b.data.map (fun c => toAsciiLowerByte c.toNat)

/-- Rust `str::trim` (standard library, external to the repository),
modelled on the character sequence: remove leading and trailing
whitespace. -/
def strTrim (s : String) : String :=
  ⟨((s.data.dropWhile Char.isWhitespace).reverse.dropWhile Char.isWhitespace).reverse⟩

/-- `reporter.rs` line 88: `input.trim().eq_ignore_ascii_case("y")`. -/
def isAffirmative (input : String) : Bool :=
  eqIgnoreAsciiCase (strTrim input) "y"

/-- The group-resolution loop of `report_and_handle` (lines 40-105).
`stdin` is the stream of lines the interactive prompt reads; at EOF
`read_line` leaves the buffer empty, so a missing line reads as `""`.
`prompts` counts the confirmations requested. Per group: `dry_run`
skips straight to the next group; `force` deletes every dupe candidate;
otherwise one line is consumed and the dupes are deleted only on an
affirmative answer. -/
def resolveGroups (fs : FS) (rm : PathBuf → Bool) (dry_run force : Bool)
    (groups : List (Nat × List PathBuf)) (stdin : List String)
    (st : DelSt) (prompts : Nat) : DelSt × Nat :=
  match groups with
  | [] => (st, prompts)
  | (_h, paths) :: rest =>
    if dry_run then
      resolveGroups fs rm dry_run force rest stdin st prompts
    else
      let size := groupSize fs paths
      let dupes := dupeFiles paths
      if force then
        resolveGroups fs rm dry_run force rest stdin (deletePass rm size dupes st) prompts
      else
        let input := stdin.headD ""
        if isAffirmative input then
          resolveGroups fs rm dry_run force rest stdin.tail
            (deletePass rm size dupes st) (prompts + 1)
        else
          resolveGroups fs rm dry_run force rest stdin.tail st (prompts + 1)

/-- The observable outcome of one `report_and_handle` run. -/
structure ReportResult where
  deleted : List PathBuf
  attempted : List PathBuf
  deleted_count : Nat
  deleted_bytes : Nat
  prompts : Nat
  summary_emitted : Bool
deriving Repr, DecidableEq

/-- `reporter.rs, report_and_handle`: early return on an empty map
(lines 14-17), otherwise resolve every group and finally print the
summary when the run was not a dry run and at least one deletion
succeeded (lines 107-114). -/
def report_and_handle (fs : FS) (rm : PathBuf → Bool) (stdin : List String)
    (duplicates : List (Nat × List PathBuf)) (dry_run force : Bool) : ReportResult :=
  if duplicates.isEmpty then
    { deleted := [], attempted := [], deleted_count := 0, deleted_bytes := 0,
      prompts := 0, summary_emitted := false }
  else
    let (st, prompts) := resolveGroups fs rm dry_run force duplicates stdin ⟨[], [], 0, 0⟩ 0
    { deleted := st.deleted, attempted := st.attempted, deleted_count := st.count,
      deleted_bytes := st.bytes, prompts := prompts,
      summary_emitted := !dry_run && decide (0 < st.count) }

/-- All dupe candidates of all groups, in group order. -/
def allDupes (m : List (Nat × List PathBuf)) : List PathBuf :=
  match m with
  | [] => []
  | g :: rest => dupeFiles g.2 ++ allDupes rest

/-- The answer the interactive prompt reads for each of `n` groups:
the next stdin line, or `""` once stdin is exhausted. -/
def answersFor : List String → Nat → List String
  | _, 0 => []
  | [], n + 1 => "" :: answersFor [] n
  | s :: t, n + 1 => s :: answersFor t n

/-! ## Association-list grouping lemmas -/

/-- The keys of a grouping map. -/
def keysOf (m : List (Nat × List PathBuf)) : List Nat :=
  m.map Prod.fst

/-- Bytes freed by a forced pass: for each group, its reported size times
the number of its dupe candidates whose removal succeeds. -/
def freedBytes (fs : FS) (rm : PathBuf → Bool) (m : List (Nat × List PathBuf)) : Nat :=
  match m with
  | [] => 0
  | g :: rest => groupSize fs g.2 * ((dupeFiles g.2).filter rm).length + freedBytes fs rm rest

/-- The files an interactive pass attempts to delete: all dupe candidates
of the groups whose prompt was answered affirmatively, in group order. -/
def interactiveDupes (groups : List (Nat × List PathBuf)) (answers : List String) :
    List PathBuf :=
  match groups, answers with
  | [], _ => []
  | _, [] => []
  | g :: rest, a :: arest =>
    (if isAffirmative a then dupeFiles g.2 else []) ++ interactiveDupes rest arest

/-- A concrete four-file file system used to exercise the engine: paths
`0` and `1` hold the same one-byte content, path `2` holds a different
byte of the same size, and path `3` stats fine but cannot be read. -/
def fsW : FS where
  isFile := fun _ => true
  meta := fun p =>
    match p with
    | 0 => some 1
    | 1 => some 1
    | 2 => some 1
    | 3 => some 1
    | _ => none
  content := fun p =>
    match p with
    | 0 => some [5]
    | 1 => some [5]
    | 2 => some [9]
    | _ => none

/-- A concrete digest for the test file system (injective on its tiny
content domain). -/
def digestW (l : Bytes) : Nat :=
  l.foldl (fun a b => a + b) 0

/-- Removal oracle where every `remove_file` succeeds. -/
def rmTrue : PathBuf → Bool := fun _ => true

/-- Removal oracle where every `remove_file` fails. -/
def rmFalse : PathBuf → Bool := fun _ => false

lemma lookupGroup_pushEntry_self (m : List (Nat × List PathBuf)) (k : Nat) (v : PathBuf) :
    lookupGroup (pushEntry m k v) k = lookupGroup m k ++ [v] := by
  induction m with
  | nil => simp [pushEntry, lookupGroup]
  | cons g rest ih =>
    obtain ⟨k', vs⟩ := g
    by_cases h : k = k'
    · simp [pushEntry, lookupGroup, h]
    · simp [pushEntry, lookupGroup, h, ih]

lemma lookupGroup_pushEntry_ne (m : List (Nat × List PathBuf)) {k k' : Nat} (v : PathBuf)
    (h : k' ≠ k) : lookupGroup (pushEntry m k v) k' = lookupGroup m k' := by
  induction m with
  | nil => simp [pushEntry, lookupGroup, h]
  | cons g rest ih =>
    obtain ⟨k₀, vs⟩ := g
    by_cases hk : k = k₀
    · subst hk
      simp [pushEntry, lookupGroup, h]
    · by_cases hk' : k' = k₀ <;> simp [pushEntry, lookupGroup, hk, hk', ih]

lemma mem_of_lookupGroup_ne_nil {m : List (Nat × List PathBuf)} {k : Nat}
    (h : lookupGroup m k ≠ []) : (k, lookupGroup m k) ∈ m := by
  induction m with
  | nil => simp [lookupGroup] at h
  | cons g rest ih =>
    obtain ⟨k', vs⟩ := g
    by_cases hk : k = k'
    · subst hk
      simp [lookupGroup]
    · simp only [lookupGroup, if_neg hk] at h ⊢
      exact List.mem_cons_of_mem _ (ih h)

lemma keysOf_pushEntry (m : List (Nat × List PathBuf)) (k : Nat) (v : PathBuf) :
    keysOf (pushEntry m k v) = if k ∈ keysOf m then keysOf m else keysOf m ++ [k] := by
  induction m with
  | nil => simp [pushEntry, keysOf]
  | cons g rest ih =>
    obtain ⟨k', vs⟩ := g
    by_cases h : k = k'
    · simp [pushEntry, keysOf, h]
    · simp only [pushEntry, if_neg h, keysOf, List.map_cons] at ih ⊢
      rw [ih]
      have : (k ∈ k' :: List.map Prod.fst rest) ↔ (k ∈ List.map Prod.fst rest) := by
        simp [List.mem_cons, h]
      by_cases hm : k ∈ List.map Prod.fst rest
      · simp [hm, this]
      · simp [hm, this]

lemma keysOf_pushEntry_nodup {m : List (Nat × List PathBuf)} (k : Nat) (v : PathBuf)
    (h : (keysOf m).Nodup) : (keysOf (pushEntry m k v)).Nodup := by
  rw [keysOf_pushEntry]
  by_cases hm : k ∈ keysOf m
  · simpa [hm] using h
  · simp only [hm, if_false]
    rw [List.nodup_append]
    refine ⟨h, List.nodup_singleton k, ?_⟩
    intro a ha hak
    rw [List.mem_singleton] at hak
    exact hm (hak ▸ ha)

lemma lookupGroup_eq_of_mem {m : List (Nat × List PathBuf)} {g : Nat × List PathBuf}
    (hnd : (keysOf m).Nodup) (hg : g ∈ m) : lookupGroup m g.1 = g.2 := by
  induction m with
  | nil => simp at hg
  | cons g' rest ih =>
    obtain ⟨k', vs⟩ := g'
    simp only [keysOf, List.map_cons, List.nodup_cons] at hnd
    rcases List.mem_cons.mp hg with h | h
    · subst h
      simp [lookupGroup]
    · have hk : g.1 ≠ k' := by
        intro he
        exact hnd.1 (he ▸ List.mem_map_of_mem Prod.fst h)
      simp only [lookupGroup, if_neg hk]
      exact ih hnd.2 h

lemma flatMembers_pushEntry_perm (m : List (Nat × List PathBuf)) (k : Nat) (v : PathBuf) :
    (flatMembers (pushEntry m k v)).Perm (flatMembers m ++ [v]) := by
  induction m with
  | nil => simp [pushEntry, flatMembers]
  | cons g rest ih =>
    obtain ⟨k', vs⟩ := g
    by_cases h : k = k'
    · simp only [pushEntry, if_pos h, flatMembers]
      rw [List.append_assoc, List.append_assoc]
      exact List.Perm.append_left vs List.perm_append_comm
    · simp only [pushEntry, if_neg h, flatMembers]
      rw [List.append_assoc]
      exact List.Perm.append_left vs ih

lemma mem_flatMembers {m : List (Nat × List PathBuf)} {x : PathBuf} :
    x ∈ flatMembers m ↔ ∃ g ∈ m, x ∈ g.2 := by
  induction m with
  | nil => simp [flatMembers]
  | cons g rest ih =>
    simp only [flatMembers, List.mem_append, ih, List.mem_cons]
    constructor
    · rintro (hx | ⟨g', hg', hx⟩)
      · exact ⟨g, Or.inl rfl, hx⟩
      · exact ⟨g', Or.inr hg', hx⟩
    · rintro ⟨g', (rfl | hg'), hx⟩
      · exact Or.inl hx
      · exact Or.inr ⟨g', hg', hx⟩

lemma groupByKey_cons_some {key : PathBuf → Option Nat} {f : PathBuf} {k : Nat}
    (t : List PathBuf) (m : List (Nat × List PathBuf)) (h : key f = some k) :
    groupByKey key (f :: t) m = groupByKey key t (pushEntry m k f) := by
  simp [groupByKey, h]

lemma groupByKey_cons_none {key : PathBuf → Option Nat} {f : PathBuf}
    (t : List PathBuf) (m : List (Nat × List PathBuf)) (h : key f = none) :
    groupByKey key (f :: t) m = groupByKey key t m := by
  simp [groupByKey, h]

lemma lookupGroup_groupByKey (key : PathBuf → Option Nat) (l : List PathBuf)
    (m : List (Nat × List PathBuf)) (k : Nat) :
    lookupGroup (groupByKey key l m) k
      = lookupGroup m k ++ l.filter (fun f => key f == some k) := by
  induction l generalizing m with
  | nil => simp [groupByKey]
  | cons f t ih =>
    cases hkf : key f with
    | none =>
      rw [groupByKey_cons_none t m hkf, ih, List.filter_cons]
      simp [hkf]
    | some k' =>
      rw [groupByKey_cons_some t m hkf, ih]
      by_cases hk : k' = k
      · subst hk
        rw [lookupGroup_pushEntry_self, List.filter_cons]
        simp [hkf, List.append_assoc]
      · rw [lookupGroup_pushEntry_ne m f (fun h => hk h.symm), List.filter_cons]
        simp [hkf, hk]

lemma keysOf_groupByKey_nodup (key : PathBuf → Option Nat) (l : List PathBuf)
    {m : List (Nat × List PathBuf)} (h : (keysOf m).Nodup) :
    (keysOf (groupByKey key l m)).Nodup := by
  induction l generalizing m with
  | nil => simpa [groupByKey] using h
  | cons f t ih =>
    cases hkf : key f with
    | none =>
      rw [groupByKey_cons_none t m hkf]
      exact ih h
    | some k =>
      rw [groupByKey_cons_some t m hkf]
      exact ih (keysOf_pushEntry_nodup k f h)

lemma flatMembers_groupByKey_perm (key : PathBuf → Option Nat) (l : List PathBuf)
    (m : List (Nat × List PathBuf)) :
    (flatMembers (groupByKey key l m)).Perm
      (flatMembers m ++ l.filter (fun f => (key f).isSome)) := by
  induction l generalizing m with
  | nil => simp [groupByKey]
  | cons f t ih =>
    cases hkf : key f with
    | none =>
      rw [groupByKey_cons_none t m hkf, List.filter_cons]
      have hb : ((key f).isSome = false) := by simp [hkf]
      simpa [hb] using ih m
    | some k =>
      rw [groupByKey_cons_some t m hkf, List.filter_cons]
      have hb : ((key f).isSome = true) := by simp [hkf]
      simp only [hb, if_true]
      refine (ih (pushEntry m k f)).trans ?_
      refine (List.Perm.append_right _ (flatMembers_pushEntry_perm m k f)).trans ?_
      rw [List.append_assoc, List.singleton_append]

lemma flatMembers_filter_subset (p : Nat × List PathBuf → Bool)
    {m : List (Nat × List PathBuf)} {x : PathBuf}
    (h : x ∈ flatMembers (m.filter p)) : x ∈ flatMembers m := by
  rcases mem_flatMembers.mp h with ⟨g, hg, hx⟩
  exact mem_flatMembers.mpr ⟨g, List.mem_of_mem_filter hg, hx⟩

lemma nodup_flatMembers_filter (p : Nat × List PathBuf → Bool)
    {m : List (Nat × List PathBuf)} (h : (flatMembers m).Nodup) :
    (flatMembers (m.filter p)).Nodup := by
  induction m with
  | nil => simp [flatMembers]
  | cons g rest ih =>
    simp only [flatMembers, List.nodup_append] at h
    obtain ⟨h1, h2, h3⟩ := h
    rw [List.filter_cons]
    by_cases hp : p g = true
    · simp only [hp, if_true, flatMembers, List.nodup_append]
      refine ⟨h1, ih h2, ?_⟩
      intro a ha hb
      exact h3 ha (flatMembers_filter_subset p hb)
    · simp only [hp, Bool.false_eq_true, if_false]
      exact ih h2

/-! ## Characterization of the two phases of `find_duplicates` -/

/-- Every bucket built by `groupByKey` from the empty map is the filter of
the input along its key. -/
lemma groupByKey_bucket_eq {key : PathBuf → Option Nat} {l : List PathBuf}
    {g : Nat × List PathBuf} (hg : g ∈ groupByKey key l []) :
    g.2 = l.filter (fun f => key f == some g.1) := by
  have hnd : (keysOf (groupByKey key l [])).Nodup := by
    apply keysOf_groupByKey_nodup
    simp [keysOf]
  have := lookupGroup_eq_of_mem hnd hg
  rw [lookupGroup_groupByKey] at this
  simpa [lookupGroup] using this.symm

/-- Every member of a bucket built by `groupByKey` comes from the input
list and has the bucket's key. -/
lemma groupByKey_mem_bucket {key : PathBuf → Option Nat} {l : List PathBuf}
    {g : Nat × List PathBuf} {x : PathBuf} (hg : g ∈ groupByKey key l [])
    (hx : x ∈ g.2) : x ∈ l ∧ key x = some g.1 := by
  rw [groupByKey_bucket_eq hg] at hx
  rcases List.mem_filter.mp hx with ⟨hxl, hxk⟩
  exact ⟨hxl, by simpa using hxk⟩

/-- The nonempty bucket of any key is a bucket of the map. -/
lemma groupByKey_bucket_mem {key : PathBuf → Option Nat} {l : List PathBuf} {k : Nat}
    (h : l.filter (fun f => key f == some k) ≠ []) :
    (k, l.filter (fun f => key f == some k)) ∈ groupByKey key l [] := by
  have hl : lookupGroup (groupByKey key l []) k = l.filter (fun f => key f == some k) := by
    rw [lookupGroup_groupByKey]
    simp [lookupGroup]
  have := mem_of_lookupGroup_ne_nil (m := groupByKey key l []) (k := k) (by rw [hl]; exact h)
  rwa [hl] at this

lemma mem_find_duplicates {fs : FS} {digest : Bytes → Nat} {files : List PathBuf}
    {g : Nat × List PathBuf} :
    g ∈ find_duplicates fs digest files
      ↔ g ∈ hash_groups fs digest (candidates fs files) ∧ 1 < g.2.length := by
  simp [find_duplicates, List.mem_filter]

/-- Members of a duplicate group are candidates and hash to the group key. -/
lemma find_duplicates_member_hash {fs : FS} {digest : Bytes → Nat} {files : List PathBuf}
    {g : Nat × List PathBuf} {x : PathBuf} (hg : g ∈ find_duplicates fs digest files)
    (hx : x ∈ g.2) :
    x ∈ candidates fs files ∧ hash_file fs digest x = some g.1 :=
  groupByKey_mem_bucket (mem_find_duplicates.mp hg).1 hx

/-- A file is a Phase 2 candidate exactly when its stat succeeds and its
size is shared with at least one other input file (counting multiplicity). -/
lemma mem_candidates_iff {fs : FS} {files : List PathBuf} {f : PathBuf} :
    f ∈ candidates fs files
      ↔ f ∈ files ∧ ∃ n, fs.meta f = some n
          ∧ 1 < (files.filter (fun x => fs.meta x == some n)).length := by
  constructor
  · intro h
    rcases mem_flatMembers.mp h with ⟨g, hg, hf⟩
    rcases List.mem_filter.mp hg with ⟨hgm, hglen⟩
    rcases groupByKey_mem_bucket hgm hf with ⟨hfl, hkey⟩
    refine ⟨hfl, g.1, hkey, ?_⟩
    have := groupByKey_bucket_eq hgm
    rw [← this]
    simpa using hglen
  · rintro ⟨hfl, n, hn, hlen⟩
    set b := files.filter (fun x => fs.meta x == some n) with hb
    have hfb : f ∈ b := List.mem_filter.mpr ⟨hfl, by simp [hn]⟩
    have hbne : b ≠ [] := by
      intro he
      rw [he] at hfb
      simp at hfb
    have hmem : (n, b) ∈ size_groups fs files := groupByKey_bucket_mem hbne
    apply mem_flatMembers.mpr
    refine ⟨(n, b), List.mem_filter.mpr ⟨hmem, by simpa using hlen⟩, hfb⟩

/-! ## No-duplicate-occurrence chain and the kept member -/

lemma nodup_flatMembers_groupByKey (key : PathBuf → Option Nat) {l : List PathBuf}
    (hl : l.Nodup) : (flatMembers (groupByKey key l [])).Nodup := by
  have hperm := flatMembers_groupByKey_perm key l []
  simp only [flatMembers, List.nil_append] at hperm
  exact hperm.symm.nodup (hl.filter _)

lemma nodup_candidates {fs : FS} {files : List PathBuf} (hnd : files.Nodup) :
    (candidates fs files).Nodup :=
  nodup_flatMembers_filter _ (nodup_flatMembers_groupByKey fs.meta hnd)

lemma nodup_flatMembers_find_duplicates {fs : FS} {digest : Bytes → Nat}
    {files : List PathBuf} (hnd : files.Nodup) :
    (flatMembers (find_duplicates fs digest files)).Nodup :=
  nodup_flatMembers_filter _
    (nodup_flatMembers_groupByKey (hash_file fs digest) (nodup_candidates hnd))

lemma mem_allDupes {m : List (Nat × List PathBuf)} {x : PathBuf} :
    x ∈ allDupes m ↔ ∃ g ∈ m, x ∈ dupeFiles g.2 := by
  induction m with
  | nil => simp [allDupes]
  | cons g rest ih =>
    simp only [allDupes, List.mem_append, ih, List.mem_cons]
    constructor
    · rintro (hx | ⟨g', hg', hx⟩)
      · exact ⟨g, Or.inl rfl, hx⟩
      · exact ⟨g', Or.inr hg', hx⟩
    · rintro ⟨g', (rfl | hg'), hx⟩
      · exact Or.inl hx
      · exact Or.inr ⟨g', hg', hx⟩

lemma allDupes_subset_flatMembers {m : List (Nat × List PathBuf)} {x : PathBuf}
    (h : x ∈ allDupes m) : x ∈ flatMembers m := by
  rcases mem_allDupes.mp h with ⟨g, hg, hx⟩
  exact mem_flatMembers.mpr ⟨g, hg, List.mem_of_mem_drop hx⟩

/-- When no path occurs twice across the groups, the first member of a
group is not among anybody's dupe candidates. -/
lemma head_not_mem_allDupes {m : List (Nat × List PathBuf)} {g : Nat × List PathBuf}
    {k : PathBuf} {t : List PathBuf} (h : (flatMembers m).Nodup) (hg : g ∈ m)
    (hk : g.2 = k :: t) : k ∉ allDupes m := by
  induction m with
  | nil => simp at hg
  | cons g' rest ih =>
    simp only [flatMembers, List.nodup_append] at h
    obtain ⟨h1, h2, h3⟩ := h
    simp only [allDupes, List.mem_append]
    rintro (hmem | hmem)
    · rcases List.mem_cons.mp hg with rfl | hgr
      · rw [hk] at h1 hmem
        simp only [dupeFiles, List.drop_one, List.tail_cons] at hmem
        exact (List.nodup_cons.mp h1).1 hmem
      · have hkfm : k ∈ flatMembers rest :=
          mem_flatMembers.mpr ⟨g, hgr, hk ▸ List.mem_cons_self k t⟩
        have hkg' : k ∈ g'.2 := List.mem_of_mem_drop hmem
        exact h3 hkg' hkfm
    · rcases List.mem_cons.mp hg with rfl | hgr
      · have hkg : k ∈ g.2 := hk ▸ List.mem_cons_self k t
        exact h3 hkg (allDupes_subset_flatMembers hmem)
      · exact ih h2 hgr hmem

/-! ## Scanner lemmas -/

lemma scan_files_mem {fs : FS} {walk : List (Option PathBuf)} {min_size : Nat} {p : PathBuf}
    (hp : p ∈ scan_files fs walk min_size) :
    fs.isFile p = true ∧ ∃ len, fs.meta p = some len ∧ min_size ≤ len := by
  have aux : ∀ (w : List (Option PathBuf)) (acc : List PathBuf),
      p ∈ w.foldl
        (fun files e =>
          match e with
          | none => files
          | some path =>
            if fs.isFile path then
              match fs.meta path with
              | some len => if min_size ≤ len then files ++ [path] else files
              | none => files
            else files)
        acc →
      p ∈ acc ∨ (fs.isFile p = true ∧ ∃ len, fs.meta p = some len ∧ min_size ≤ len) := by
    intro w
    induction w with
    | nil => intro acc h; exact Or.inl h
    | cons e t ih =>
      intro acc h
      simp only [List.foldl_cons] at h
      rcases ih _ h with hacc | hcond
      · cases e with
        | none => exact Or.inl hacc
        | some path =>
          by_cases hf : fs.isFile path
          · simp only [hf, if_true] at hacc
            cases hmeta : fs.meta path with
            | none =>
              rw [hmeta] at hacc
              exact Or.inl hacc
            | some len =>
              rw [hmeta] at hacc
              have hacc' : p ∈ (if min_size ≤ len then acc ++ [path] else acc) := hacc
              by_cases hlen : min_size ≤ len
              · rw [if_pos hlen] at hacc'
                rcases List.mem_append.mp hacc' with h1 | h1
                · exact Or.inl h1
                · rw [List.mem_singleton] at h1
                  subst h1
                  exact Or.inr ⟨hf, len, hmeta, hlen⟩
              · rw [if_neg hlen] at hacc'
                exact Or.inl hacc'
          · simp only [hf] at hacc
            simp only [Bool.false_eq_true, if_false] at hacc
            exact Or.inl hacc
      · exact Or.inr hcond
  rcases aux walk [] hp with h | h
  · simp at h
  · exact h

/-! ## Resolver lemmas -/

lemma deletePass_eq (rm : PathBuf → Bool) (size : Nat) (dupes : List PathBuf) (st : DelSt) :
    deletePass rm size dupes st =
      { deleted := st.deleted ++ dupes.filter rm,
        attempted := st.attempted ++ dupes,
        count := st.count + (dupes.filter rm).length,
        bytes := st.bytes + size * (dupes.filter rm).length } := by
  induction dupes generalizing st with
  | nil => simp [deletePass]
  | cons d t ih =>
    simp only [deletePass, List.foldl_cons] at ih ⊢
    rw [ih]
    cases hd : rm d with
    | false =>
      simp [deleteOne, hd, List.filter_cons]
    | true =>
      simp only [deleteOne, hd, if_true, List.filter_cons, DelSt.mk.injEq]
      refine ⟨by simp, by simp, by simp only [List.length_cons]; omega, ?_⟩
      simp only [List.length_cons, Nat.mul_succ]
      omega

lemma resolveGroups_dry (fs : FS) (rm : PathBuf → Bool) (force : Bool)
    (groups : List (Nat × List PathBuf)) (stdin : List String) (st : DelSt) (p : Nat) :
    resolveGroups fs rm true force groups stdin st p = (st, p) := by
  induction groups with
  | nil => rfl
  | cons g rest ih =>
    obtain ⟨h, paths⟩ := g
    simp only [resolveGroups, if_true]
    exact ih

lemma resolveGroups_force (fs : FS) (rm : PathBuf → Bool)
    (groups : List (Nat × List PathBuf)) (stdin : List String) (st : DelSt) (p : Nat) :
    resolveGroups fs rm false true groups stdin st p =
      ({ deleted := st.deleted ++ (allDupes groups).filter rm,
         attempted := st.attempted ++ allDupes groups,
         count := st.count + ((allDupes groups).filter rm).length,
         bytes := st.bytes + freedBytes fs rm groups }, p) := by
  induction groups generalizing st with
  | nil => simp [resolveGroups, allDupes, freedBytes]
  | cons g rest ih =>
    obtain ⟨h, paths⟩ := g
    simp only [resolveGroups, Bool.false_eq_true, if_false, if_true]
    rw [ih, deletePass_eq]
    simp only [allDupes, freedBytes, List.filter_append, List.length_append, Prod.mk.injEq,
      DelSt.mk.injEq]
    refine ⟨⟨by simp, by simp, by omega, by omega⟩, trivial⟩

lemma resolveGroups_inter_prompts (fs : FS) (rm : PathBuf → Bool)
    (groups : List (Nat × List PathBuf)) (stdin : List String) (st : DelSt) (p : Nat) :
    (resolveGroups fs rm false false groups stdin st p).2 = p + groups.length := by
  induction groups generalizing stdin st p with
  | nil => simp [resolveGroups]
  | cons g rest ih =>
    obtain ⟨h, paths⟩ := g
    simp only [resolveGroups, Bool.false_eq_true, if_false]
    by_cases ha : isAffirmative (stdin.headD "")
    · rw [if_pos ha, ih]
      simp only [List.length_cons]
      omega
    · rw [if_neg ha, ih]
      simp only [List.length_cons]
      omega

lemma resolveGroups_inter_attempted (fs : FS) (rm : PathBuf → Bool)
    (groups : List (Nat × List PathBuf)) (stdin : List String) (st : DelSt) (p : Nat) :
    (resolveGroups fs rm false false groups stdin st p).1.attempted
      = st.attempted ++ interactiveDupes groups (answersFor stdin groups.length) := by
  induction groups generalizing stdin st p with
  | nil => simp [resolveGroups, interactiveDupes]
  | cons g rest ih =>
    obtain ⟨h, paths⟩ := g
    simp only [resolveGroups, Bool.false_eq_true, if_false]
    cases stdin with
    | nil =>
      simp only [List.headD_nil, List.tail_nil, List.length_cons]
      show _ = st.attempted ++ interactiveDupes ((h, paths) :: rest) (answersFor [] (rest.length + 1))
      rw [show answersFor [] (rest.length + 1) = "" :: answersFor [] rest.length from rfl]
      by_cases ha : isAffirmative ""
      · rw [if_pos ha, ih, deletePass_eq]
        simp only [interactiveDupes, if_pos ha, List.append_assoc]
      · rw [if_neg ha, ih]
        simp only [interactiveDupes, if_neg ha, List.nil_append]
    | cons s t =>
      simp only [List.headD_cons, List.tail_cons, List.length_cons]
      rw [show answersFor (s :: t) (rest.length + 1) = s :: answersFor t rest.length from rfl]
      by_cases ha : isAffirmative s
      · rw [if_pos ha, ih, deletePass_eq]
        simp only [interactiveDupes, if_pos ha, List.append_assoc]
      · rw [if_neg ha, ih]
        simp only [interactiveDupes, if_neg ha, List.nil_append]

lemma resolveGroups_inter_deleted (fs : FS) (rm : PathBuf → Bool)
    (groups : List (Nat × List PathBuf)) (stdin : List String) (st : DelSt) (p : Nat) :
    (resolveGroups fs rm false false groups stdin st p).1.deleted
      = st.deleted ++ (interactiveDupes groups (answersFor stdin groups.length)).filter rm := by
  induction groups generalizing stdin st p with
  | nil => simp [resolveGroups, interactiveDupes]
  | cons g rest ih =>
    obtain ⟨h, paths⟩ := g
    simp only [resolveGroups, Bool.false_eq_true, if_false]
    cases stdin with
    | nil =>
      simp only [List.headD_nil, List.tail_nil, List.length_cons]
      rw [show answersFor [] (rest.length + 1) = "" :: answersFor [] rest.length from rfl]
      by_cases ha : isAffirmative ""
      · rw [if_pos ha, ih, deletePass_eq]
        simp only [interactiveDupes, if_pos ha, List.filter_append, List.append_assoc]
      · rw [if_neg ha, ih]
        simp only [interactiveDupes, if_neg ha, List.nil_append]
    | cons s t =>
      simp only [List.headD_cons, List.tail_cons, List.length_cons]
      rw [show answersFor (s :: t) (rest.length + 1) = s :: answersFor t rest.length from rfl]
      by_cases ha : isAffirmative s
      · rw [if_pos ha, ih, deletePass_eq]
        simp only [interactiveDupes, if_pos ha, List.filter_append, List.append_assoc]
      · rw [if_neg ha, ih]
        simp only [interactiveDupes, if_neg ha, List.nil_append]

/-! ## Affirmative-input and remaining glue lemmas -/

lemma char_eq_of_toNat {a b : Char} (h : a.toNat = b.toNat) : a = b :=
  Char.eq_of_val_eq (UInt32.toNat.inj h)

lemma eqIgnoreAsciiCase_y_iff (t : String) :
    eqIgnoreAsciiCase t "y" = true ↔ (t = "y" ∨ t = "Y") := by
  obtain ⟨data⟩ := t
  simp only [eqIgnoreAsciiCase, beq_iff_eq]
  rw [show ("y".data.map (fun c => toAsciiLowerByte c.toNat)) = [121] from rfl]
  cases data with
  | nil =>
    constructor
    · intro h
      simp at h
    · rintro (h | h) <;> exact absurd (congrArg String.data h) (by simp)
  | cons a l =>
    cases l with
    | cons b l2 =>
      constructor
      · intro h
        simp at h
      · rintro (h | h) <;> exact absurd (congrArg String.data h) (by simp)
    | nil =>
      simp only [List.map_cons, List.map_nil, List.cons.injEq, and_true]
      constructor
      · intro h
        have ha : a.toNat = 121 ∨ a.toNat = 89 := by
          by_cases hr : 65 ≤ a.toNat ∧ a.toNat ≤ 90
          · rw [toAsciiLowerByte, if_pos hr] at h
            omega
          · rw [toAsciiLowerByte, if_neg hr] at h
            omega
        rcases ha with ha | ha
        · exact Or.inl (congrArg (fun c => String.mk [c]) (char_eq_of_toNat (ha.trans rfl)))
        · exact Or.inr (congrArg (fun c => String.mk [c]) (char_eq_of_toNat (ha.trans rfl)))
      · rintro (h | h) <;>
          (have h2 := congrArg String.data h
           simp only [List.cons.injEq, and_true] at h2) <;>
          (rw [h2]
           rfl)

lemma report_and_handle_eq (fs : FS) (rm : PathBuf → Bool) (stdin : List String)
    (dups : List (Nat × List PathBuf)) (dry_run force : Bool)
    (hne : dups.isEmpty = false) :
    report_and_handle fs rm stdin dups dry_run force =
      { deleted := (resolveGroups fs rm dry_run force dups stdin ⟨[], [], 0, 0⟩ 0).1.deleted,
        attempted := (resolveGroups fs rm dry_run force dups stdin ⟨[], [], 0, 0⟩ 0).1.attempted,
        deleted_count := (resolveGroups fs rm dry_run force dups stdin ⟨[], [], 0, 0⟩ 0).1.count,
        deleted_bytes := (resolveGroups fs rm dry_run force dups stdin ⟨[], [], 0, 0⟩ 0).1.bytes,
        prompts := (resolveGroups fs rm dry_run force dups stdin ⟨[], [], 0, 0⟩ 0).2,
        summary_emitted :=
          !dry_run && decide
            (0 < (resolveGroups fs rm dry_run force dups stdin ⟨[], [], 0, 0⟩ 0).1.count) } := by
  rcases hres : resolveGroups fs rm dry_run force dups stdin ⟨[], [], 0, 0⟩ 0 with ⟨st, p⟩
  simp [report_and_handle, hne, hres]

lemma allDupes_length (m : List (Nat × List PathBuf)) :
    (allDupes m).length = (m.map (fun g => g.2.length - 1)).sum := by
  induction m with
  | nil => simp [allDupes]
  | cons g rest ih =>
    simp [allDupes, dupeFiles, ih]

lemma freedBytes_all (fs : FS) {rm : PathBuf → Bool} (hrm : ∀ p, rm p = true)
    (m : List (Nat × List PathBuf)) :
    freedBytes fs rm m = (m.map (fun g => groupSize fs g.2 * (g.2.length - 1))).sum := by
  induction m with
  | nil => simp [freedBytes]
  | cons g rest ih =>
    simp [freedBytes, ih, List.filter_eq_self.mpr (fun a _ => hrm a), dupeFiles]

lemma interactiveDupes_subset_allDupes {groups : List (Nat × List PathBuf)}
    {answers : List String} {x : PathBuf} (h : x ∈ interactiveDupes groups answers) :
    x ∈ allDupes groups := by
  induction groups generalizing answers with
  | nil => simp [interactiveDupes] at h
  | cons g rest ih =>
    cases answers with
    | nil => simp [interactiveDupes] at h
    | cons a arest =>
      simp only [interactiveDupes, List.mem_append] at h
      simp only [allDupes, List.mem_append]
      rcases h with h | h
      · by_cases ha : isAffirmative a
        · rw [if_pos ha] at h
          exact Or.inl h
        · rw [if_neg ha] at h
          simp at h
      · exact Or.inr (ih h)

lemma interactiveDupes_nil_of_nonaffirm {groups : List (Nat × List PathBuf)}
    {answers : List String} (h : ∀ a ∈ answers, isAffirmative a = false) :
    interactiveDupes groups answers = [] := by
  induction groups generalizing answers with
  | nil => cases answers <;> rfl
  | cons g rest ih =>
    cases answers with
    | nil => rfl
    | cons a arest =>
      simp only [interactiveDupes, h a (List.mem_cons_self a arest), Bool.false_eq_true,
        if_false, List.nil_append]
      exact ih (fun b hb => h b (List.mem_cons_of_mem a hb))

lemma mem_answersFor {stdin : List String} {n : Nat} {a : String}
    (ha : a ∈ answersFor stdin n) : a ∈ stdin ∨ a = "" := by
  induction stdin generalizing n with
  | nil =>
    induction n with
    | zero => simp [answersFor] at ha
    | succ k ih =>
      simp only [answersFor, List.mem_cons] at ha
      rcases ha with rfl | ha
      · exact Or.inr rfl
      · exact ih ha
  | cons s t ih =>
    cases n with
    | zero => simp [answersFor] at ha
    | succ k =>
      simp only [answersFor, List.mem_cons] at ha
      rcases ha with rfl | ha
      · exact Or.inl (List.mem_cons_self a t)
      · rcases ih ha with h | h
        · exact Or.inl (List.mem_cons_of_mem s h)
        · exact Or.inr h

lemma one_lt_length_of_two_mem {l : List PathBuf} {p q : PathBuf}
    (hp : p ∈ l) (hq : q ∈ l) (hne : p ≠ q) : 1 < l.length := by
  cases l with
  | nil => simp at hp
  | cons a t =>
    cases t with
    | nil =>
      rw [List.mem_singleton] at hp hq
      exact absurd (hp.trans hq.symm) hne
    | cons b t2 =>
      simp only [List.length_cons]
      omega

lemma groupByKey_filter_isSome (key : PathBuf → Option Nat) (l : List PathBuf)
    (m : List (Nat × List PathBuf)) :
    groupByKey key l m = groupByKey key (l.filter (fun f => (key f).isSome)) m := by
  induction l generalizing m with
  | nil => rfl
  | cons f t ih =>
    cases hkf : key f with
    | none =>
      rw [groupByKey_cons_none t m hkf, List.filter_cons]
      simp only [hkf, Option.isSome_none, Bool.false_eq_true, if_false]
      exact ih m
    | some k =>
      rw [groupByKey_cons_some t m hkf, List.filter_cons]
      simp only [hkf, Option.isSome_some, if_true]
      rw [groupByKey_cons_some _ _ hkf]
      exact ih (pushEntry m k f)

/-! ## Claims -/

/-- C3: for every run with `dry_run = true`, `report_and_handle` deletes
zero files and never invokes a file-removal operation or a prompt,
regardless of the number of duplicate groups and of the `force` flag
(dry-run takes precedence over force). -/
theorem C3_dry_run_deletes_nothing (fs : FS) (rm : PathBuf → Bool) (stdin : List String)
    (dups : List (Nat × List PathBuf)) (force : Bool) :
    (report_and_handle fs rm stdin dups true force).attempted = []
    ∧ (report_and_handle fs rm stdin dups true force).deleted = []
    ∧ (report_and_handle fs rm stdin dups true force).deleted_count = 0
    ∧ (report_and_handle fs rm stdin dups true force).deleted_bytes = 0 := by
  by_cases he : dups.isEmpty
  · simp [report_and_handle, he]
  · have hne : dups.isEmpty = false := by simpa using he
    rw [report_and_handle_eq fs rm stdin dups true force hne, resolveGroups_dry]
    simp

/-- C4 counterexample: a non-dry-run forced pass over one duplicate group
in which the single deletion is attempted and fails emits no final
summary, contradicting the claim that the summary is emitted even when
all individual deletions failed. -/
theorem C4_counterexample :
    (report_and_handle fsW rmFalse [] (find_duplicates fsW digestW [0, 1, 2, 3]) false
          true).attempted = [1]
    ∧ rmFalse 1 = false
    ∧ (report_and_handle fsW rmFalse [] (find_duplicates fsW digestW [0, 1, 2, 3]) false
          true).summary_emitted = false := by
  decide

/-- C4 (amended): in any non-dry-run resolution pass the final summary is
emitted exactly when at least one deletion succeeded; in particular it is
still emitted when some deletions failed, provided at least one
succeeded, but it is suppressed when no deletion succeeded. -/
theorem C4_summary_iff_deletion_succeeded (fs : FS) (rm : PathBuf → Bool)
    (stdin : List String) (dups : List (Nat × List PathBuf)) (force : Bool) :
    (report_and_handle fs rm stdin dups false force).summary_emitted
      = decide (0 < (report_and_handle fs rm stdin dups false force).deleted_count) := by
  by_cases he : dups.isEmpty
  · simp [report_and_handle, he]
  · have hne : dups.isEmpty = false := by simpa using he
    rw [report_and_handle_eq fs rm stdin dups false force hne]
    simp

/-- C7: Phase 1 of `find_duplicates` partitions the input files by exact
byte length using only `metadata()` — the candidate selection is
independent of file contents, so singleton size buckets are discarded
before any content is read — and a file is hashed (is a candidate)
exactly when its stat succeeds and its byte length is shared with at
least one other input file. -/
theorem C7_size_prefilter (isf : PathBuf → Bool) (mf : PathBuf → Option Nat)
    (c c' : PathBuf → Option Bytes) (files : List PathBuf) (f : PathBuf) :
    candidates ⟨isf, mf, c⟩ files = candidates ⟨isf, mf, c'⟩ files
    ∧ (f ∈ candidates ⟨isf, mf, c⟩ files
        ↔ f ∈ files ∧ ∃ n, mf f = some n
            ∧ 1 < (files.filter (fun x => mf x == some n)).length) :=
  ⟨rfl, mem_candidates_iff⟩

/-- C8: in interactive mode (`dry_run = false`, `force = false`) the
resolver prompts exactly once per duplicate group; the files it attempts
to delete are precisely all dupe candidates of the affirmatively answered
groups (whole groups, no partial per-file confirmation), and the files
actually deleted are those attempts that succeed. -/
theorem C8_interactive_one_prompt_per_group (fs : FS) (rm : PathBuf → Bool)
    (dups : List (Nat × List PathBuf)) (stdin : List String) :
    (report_and_handle fs rm stdin dups false false).prompts = dups.length
    ∧ (report_and_handle fs rm stdin dups false false).attempted
        = interactiveDupes dups (answersFor stdin dups.length)
    ∧ (report_and_handle fs rm stdin dups false false).deleted
        = (interactiveDupes dups (answersFor stdin dups.length)).filter rm := by
  cases dups with
  | nil => simp [report_and_handle, interactiveDupes]
  | cons g rest =>
    have hne : ((g :: rest : List (Nat × List PathBuf)).isEmpty) = false := rfl
    rw [report_and_handle_eq fs rm stdin (g :: rest) false false hne]
    refine ⟨?_, ?_, ?_⟩
    · show (resolveGroups fs rm false false (g :: rest) stdin ⟨[], [], 0, 0⟩ 0).2 = _
      rw [resolveGroups_inter_prompts]
      simp
    · show (resolveGroups fs rm false false (g :: rest) stdin ⟨[], [], 0, 0⟩ 0).1.attempted = _
      rw [resolveGroups_inter_attempted]
      simp
    · show (resolveGroups fs rm false false (g :: rest) stdin ⟨[], [], 0, 0⟩ 0).1.deleted = _
      rw [resolveGroups_inter_deleted]
      simp

/-- C10: the only input the interactive prompt accepts as affirmative is
the exact string y after trimming surrounding whitespace, compared
case-insensitively (so exactly trimmed y or Y); any other input line —
including the word yes — makes every group skip with no deletion. -/
theorem C10_affirmative_only_trimmed_y :
    (∀ s : String, isAffirmative s = true ↔ (strTrim s = "y" ∨ strTrim s = "Y"))
    ∧ isAffirmative "yes" = false
    ∧ ∀ (fs : FS) (rm : PathBuf → Bool) (dups : List (Nat × List PathBuf))
        (stdin : List String),
        (∀ s ∈ stdin, isAffirmative s = false) →
        (report_and_handle fs rm stdin dups false false).attempted = []
          ∧ (report_and_handle fs rm stdin dups false false).deleted = [] := by
  refine ⟨fun s => eqIgnoreAsciiCase_y_iff (strTrim s), by decide, ?_⟩
  intro fs rm dups stdin hna
  have hanswers : ∀ a ∈ answersFor stdin dups.length, isAffirmative a = false := by
    intro a ha
    rcases mem_answersFor ha with h | rfl
    · exact hna a h
    · decide
  have hnil := @interactiveDupes_nil_of_nonaffirm dups (answersFor stdin dups.length) hanswers
  by_cases he : dups.isEmpty
  · constructor <;> simp [report_and_handle, he]
  · have hne : dups.isEmpty = false := by simpa using he
    rw [report_and_handle_eq fs rm stdin dups false false hne]
    constructor
    · show (resolveGroups fs rm false false dups stdin ⟨[], [], 0, 0⟩ 0).1.attempted = _
      rw [resolveGroups_inter_attempted, hnil]
      rfl
    · show (resolveGroups fs rm false false dups stdin ⟨[], [], 0, 0⟩ 0).1.deleted = _
      rw [resolveGroups_inter_deleted, hnil]
      rfl

/-- C10 witness: on the input line yes every group is skipped and nothing
is deleted. -/
theorem C10_witness :
    isAffirmative "yes" = false
    ∧ (report_and_handle fsW rmTrue ["yes"] [(5, [0, 1])] false false).attempted = [] :=
  ⟨C10_affirmative_only_trimmed_y.2.1,
    (C10_affirmative_only_trimmed_y.2.2 fsW rmTrue [(5, [0, 1])] ["yes"]
        (by decide)).1⟩

/-- C1: two distinct input files with byte-identical content — hence, on a
file system whose stat agrees with the content, identical size and
identical digest — always end up in the same duplicate group of
`find_duplicates`; and two files of identical size but differing content,
whose digests therefore differ (the collision-freeness the engine relies
on for SHA-256), are never placed in the same group. -/
theorem C1_content_grouping (fs : FS) (digest : Bytes → Nat) (files : List PathBuf)
    (p q : PathBuf) :
    (∀ c : Bytes, fs.content p = some c → fs.content q = some c →
      fs.meta p = some c.length → fs.meta q = some c.length →
      p ≠ q → p ∈ files → q ∈ files →
      sameGroup (find_duplicates fs digest files) p q)
    ∧ (∀ c₁ c₂ : Bytes, fs.content p = some c₁ → fs.content q = some c₂ →
      c₁ ≠ c₂ → digest c₁ ≠ digest c₂ →
      ¬ sameGroup (find_duplicates fs digest files) p q) := by
  constructor
  · intro c hpc hqc hpm hqm hpq hp hq
    have hlen : 1 < (files.filter (fun x => fs.meta x == some c.length)).length := by
      apply one_lt_length_of_two_mem (p := p) (q := q) _ _ hpq
      · exact List.mem_filter.mpr ⟨hp, by simp [hpm]⟩
      · exact List.mem_filter.mpr ⟨hq, by simp [hqm]⟩
    have hpcand : p ∈ candidates fs files :=
      mem_candidates_iff.mpr ⟨hp, c.length, hpm, hlen⟩
    have hqcand : q ∈ candidates fs files :=
      mem_candidates_iff.mpr ⟨hq, c.length, hqm, hlen⟩
    have hpB : p ∈ (candidates fs files).filter
        (fun f => hash_file fs digest f == some (digest c)) :=
      List.mem_filter.mpr ⟨hpcand, by simp [hash_file, hpc]⟩
    have hqB : q ∈ (candidates fs files).filter
        (fun f => hash_file fs digest f == some (digest c)) :=
      List.mem_filter.mpr ⟨hqcand, by simp [hash_file, hqc]⟩
    have hBmem : (digest c, (candidates fs files).filter
        (fun f => hash_file fs digest f == some (digest c)))
          ∈ hash_groups fs digest (candidates fs files) := by
      apply groupByKey_bucket_mem
      intro he
      rw [he] at hpB
      simp at hpB
    have hBlen := one_lt_length_of_two_mem hpB hqB hpq
    exact ⟨_, mem_find_duplicates.mpr ⟨hBmem, hBlen⟩, hpB, hqB⟩
  · rintro c₁ c₂ hpc hqc hne hdig ⟨g, hg, hpg, hqg⟩
    have h1 := (find_duplicates_member_hash hg hpg).2
    have h2 := (find_duplicates_member_hash hg hqg).2
    rw [hash_file, hpc] at h1
    rw [hash_file, hqc] at h2
    simp only [Option.map_some', Option.some.injEq] at h1 h2
    exact hdig (h1.trans h2.symm)

/-- C1 witness: in the concrete file system, files 0 and 1 (same content)
share a duplicate group, while files 0 and 2 (same size, different
content) never do. -/
theorem C1_witness :
    (0 : PathBuf) ≠ 1
    ∧ sameGroup (find_duplicates fsW digestW [0, 1, 2, 3]) 0 1
    ∧ ¬ sameGroup (find_duplicates fsW digestW [0, 1, 2, 3]) 0 2 :=
  ⟨by decide,
    (C1_content_grouping fsW digestW [0, 1, 2, 3] 0 1).1 [5] rfl rfl rfl rfl
      (by decide) (by decide) (by decide),
    (C1_content_grouping fsW digestW [0, 1, 2, 3] 0 2).2 [5] [9] rfl rfl
      (by decide) (by decide)⟩

/-- C2: with forced deletion (`force = true`, `dry_run = false`) and every
removal succeeding, the resolver deletes exactly the dupe candidates —
`members − 1` files per group; on an input list with no repeated path the
first-listed (kept) member of each group is never removed — and the
bytes-freed counter equals the sum over groups of the group's reported
size times `members − 1`. -/
theorem C2_forced_deletes_all_dupes (fs : FS) (digest : Bytes → Nat) (rm : PathBuf → Bool)
    (files : List PathBuf) (stdin : List String)
    (hnd : files.Nodup) (hrm : ∀ x, rm x = true) :
    (report_and_handle fs rm stdin (find_duplicates fs digest files) false true).deleted
      = allDupes (find_duplicates fs digest files)
    ∧ (report_and_handle fs rm stdin (find_duplicates fs digest files) false
          true).deleted_count
      = ((find_duplicates fs digest files).map (fun g => g.2.length - 1)).sum
    ∧ (report_and_handle fs rm stdin (find_duplicates fs digest files) false
          true).deleted_bytes
      = ((find_duplicates fs digest files).map
          (fun g => groupSize fs g.2 * (g.2.length - 1))).sum
    ∧ ∀ g ∈ find_duplicates fs digest files, ∀ k t, g.2 = k :: t →
        k ∉ (report_and_handle fs rm stdin (find_duplicates fs digest files) false
          true).deleted := by
  have hfilter : ∀ l : List PathBuf, l.filter rm = l :=
    fun l => List.filter_eq_self.mpr (fun a _ => hrm a)
  have hfmnd := @nodup_flatMembers_find_duplicates fs digest files hnd
  cases hd : find_duplicates fs digest files with
  | nil =>
    refine ⟨by simp [report_and_handle, allDupes], by simp [report_and_handle],
      by simp [report_and_handle], by simp⟩
  | cons g0 rest =>
    rw [hd] at hfmnd
    have hne : ((g0 :: rest : List (Nat × List PathBuf)).isEmpty) = false := rfl
    rw [report_and_handle_eq _ _ _ _ _ _ hne]
    have hres := resolveGroups_force fs rm (g0 :: rest) stdin ⟨[], [], 0, 0⟩ 0
    refine ⟨?_, ?_, ?_, ?_⟩
    · show (resolveGroups fs rm false true (g0 :: rest) stdin ⟨[], [], 0, 0⟩ 0).1.deleted = _
      rw [hres, hfilter]
      simp
    · show (resolveGroups fs rm false true (g0 :: rest) stdin ⟨[], [], 0, 0⟩ 0).1.count = _
      rw [hres, hfilter]
      simp [allDupes_length]
    · show (resolveGroups fs rm false true (g0 :: rest) stdin ⟨[], [], 0, 0⟩ 0).1.bytes = _
      rw [hres]
      simp [freedBytes_all fs hrm]
    · intro g hg k t hkt hmem
      change k ∈ (resolveGroups fs rm false true (g0 :: rest) stdin
        ⟨[], [], 0, 0⟩ 0).1.deleted at hmem
      rw [hres, hfilter] at hmem
      simp only [List.nil_append] at hmem
      exact head_not_mem_allDupes hfmnd hg hkt hmem

/-- C2 witness: on the concrete file system every forced removal succeeds,
and the run deletes exactly the one dupe candidate of the one group. -/
theorem C2_witness :
    ([0, 1, 2, 3] : List PathBuf).Nodup
    ∧ (report_and_handle fsW rmTrue [] (find_duplicates fsW digestW [0, 1, 2, 3]) false
          true).deleted = allDupes (find_duplicates fsW digestW [0, 1, 2, 3])
    ∧ (report_and_handle fsW rmTrue [] (find_duplicates fsW digestW [0, 1, 2, 3]) false
          true).deleted_bytes
      = ((find_duplicates fsW digestW [0, 1, 2, 3]).map
          (fun g => groupSize fsW g.2 * (g.2.length - 1))).sum :=
  ⟨by decide,
    (C2_forced_deletes_all_dupes fsW digestW rmTrue [0, 1, 2, 3] [] (by decide)
        (fun x => rfl)).1,
    (C2_forced_deletes_all_dupes fsW digestW rmTrue [0, 1, 2, 3] [] (by decide)
        (fun x => rfl)).2.2.1⟩

/-- C5: every group returned by `find_duplicates` has at least two
members; its first member is the designated kept file and the remaining
members are the dupe candidates — and in every mode the resolver only
ever attempts to remove dupe candidates, never a group's first member
slot. -/
theorem C5_groups_min_two_first_kept (fs : FS) (digest : Bytes → Nat)
    (files : List PathBuf) (g : Nat × List PathBuf)
    (hg : g ∈ find_duplicates fs digest files) :
    2 ≤ g.2.length
    ∧ (∃ k, keptFile g.2 = some k ∧ g.2 = k :: dupeFiles g.2)
    ∧ ∀ (rm : PathBuf → Bool) (stdin : List String) (dr fo : Bool),
        ∀ x ∈ (report_and_handle fs rm stdin (find_duplicates fs digest files) dr
            fo).attempted,
          x ∈ allDupes (find_duplicates fs digest files) := by
  refine ⟨(mem_find_duplicates.mp hg).2, ?_, ?_⟩
  · cases hps : g.2 with
    | nil =>
      have := (mem_find_duplicates.mp hg).2
      rw [hps] at this
      simp at this
    | cons k t =>
      exact ⟨k, by simp [keptFile, hps], by simp [dupeFiles, hps]⟩
  · intro rm stdin dr fo x hx
    cases hd : find_duplicates fs digest files with
    | nil =>
      rw [hd] at hx
      simp [report_and_handle] at hx
    | cons g0 rest =>
      rw [hd] at hx
      have hne : ((g0 :: rest : List (Nat × List PathBuf)).isEmpty) = false := rfl
      rw [report_and_handle_eq _ _ _ _ _ _ hne] at hx
      change x ∈ (resolveGroups fs rm dr fo (g0 :: rest) stdin ⟨[], [], 0, 0⟩ 0).1.attempted
        at hx
      cases dr with
      | true =>
        rw [resolveGroups_dry] at hx
        simp at hx
      | false =>
        cases fo with
        | true =>
          rw [resolveGroups_force] at hx
          simpa using hx
        | false =>
          rw [resolveGroups_inter_attempted] at hx
          simp only [List.nil_append] at hx
          exact interactiveDupes_subset_allDupes hx

/-- C5 witness: the one group of the concrete run has two members, the
first is the kept file. -/
theorem C5_witness :
    2 ≤ ([0, 1] : List PathBuf).length
    ∧ (∃ k, keptFile [0, 1] = some k ∧ ([0, 1] : List PathBuf) = k :: dupeFiles [0, 1]) :=
  ⟨(C5_groups_min_two_first_kept fsW digestW [0, 1, 2, 3] (5, [0, 1]) (by decide)).1,
    (C5_groups_min_two_first_kept fsW digestW [0, 1, 2, 3] (5, [0, 1]) (by decide)).2.1⟩

/-- C6: a candidate whose content cannot be opened or fully read receives
a warning, is excluded from every duplicate group, and the Phase 2
grouping of the remaining (readable) candidates is exactly what it would
have been — the run continues, never aborting on an unreadable file. -/
theorem C6_unreadable_candidate_warned_excluded (fs : FS) (digest : Bytes → Nat)
    (files : List PathBuf) (w : PathBuf)
    (hw : fs.content w = none) (hcand : w ∈ candidates fs files) :
    w ∈ hash_warnings fs digest files
    ∧ (∀ g ∈ find_duplicates fs digest files, w ∉ g.2)
    ∧ hash_groups fs digest (candidates fs files)
        = hash_groups fs digest
            ((candidates fs files).filter (fun f => (hash_file fs digest f).isSome)) := by
  refine ⟨List.mem_filter.mpr ⟨hcand, by simp [hash_file, hw]⟩, ?_, ?_⟩
  · intro g hg hmem
    have := (find_duplicates_member_hash hg hmem).2
    rw [hash_file, hw] at this
    simp at this
  · exact groupByKey_filter_isSome _ _ _

/-- C6 witness: file 3 stats fine (so it is hashed as a candidate) but
cannot be read; it is warned about and appears in no group. -/
theorem C6_witness :
    fsW.content 3 = none
    ∧ (3 : PathBuf) ∈ hash_warnings fsW digestW [0, 1, 2, 3]
    ∧ ∀ g ∈ find_duplicates fsW digestW [0, 1, 2, 3], (3 : PathBuf) ∉ g.2 :=
  ⟨rfl,
    (C6_unreadable_candidate_warned_excluded fsW digestW [0, 1, 2, 3] 3 rfl (by decide)).1,
    (C6_unreadable_candidate_warned_excluded fsW digestW [0, 1, 2, 3] 3 rfl
        (by decide)).2.1⟩

/-- C9: a file whose stat'ed size is below the configured minimum is never
in the scanner's candidate list, and consequently never appears in any
duplicate group computed from that list. -/
theorem C9_below_min_size_never_grouped (fs : FS) (digest : Bytes → Nat)
    (walk : List (Option PathBuf)) (min_size : Nat) (p : PathBuf) (n : Nat)
    (hn : fs.meta p = some n) (hlt : n < min_size) :
    p ∉ scan_files fs walk min_size
    ∧ ∀ g ∈ find_duplicates fs digest (scan_files fs walk min_size), p ∉ g.2 := by
  have hnot : p ∉ scan_files fs walk min_size := by
    intro hp
    rcases scan_files_mem hp with ⟨_, len, hlen, hminlen⟩
    rw [hn] at hlen
    injection hlen with he
    omega
  refine ⟨hnot, ?_⟩
  intro g hg hmem
  have hc := (find_duplicates_member_hash hg hmem).1
  exact hnot (mem_candidates_iff.mp hc).1

/-- C9 witness: with minimum size 2, the one-byte file 0 is never scanned. -/
theorem C9_witness :
    fsW.meta 0 = some 1 ∧ (1 : Nat) < 2
    ∧ (0 : PathBuf) ∉ scan_files fsW [some 0, some 1] 2 :=
  ⟨rfl, by decide,
    (C9_below_min_size_never_grouped fsW digestW [some 0, some 1] 2 0 1 rfl
        (by decide)).1⟩
